import Mathlib

/-!
Verification of the CPU code-generation backend (`cpu.c`) of a polyhedral
source-to-source compiler, against its natural-language specification.

The development shallowly embeds the C source:
* pet expression trees and the access traversal (`foreach_access_expr`,
  `inc_n_access`, `add_access`) from `cpu.c` lines 419-491;
* the access printers (`print_access`, `print_access_expr`) lines 256-327;
* statement lookup and leaf annotation (`find_stmt`, `at_each_domain`)
  lines 292-311 and 497-550;
* the parallelism analysis (`ast_schedule_dim_is_parallel`) lines 119-159,
  over a finite-relation model of the polyhedral algebra;
* the OpenMP build hooks (`mark_openmp_parallel`, `ast_build_after_for`)
  lines 163-245, driven by a model of the external tree-construction engine;
* output-file name derivation (`get_output_file`) lines 63-87;
* the driver (`any_hidden_declarations`, `generate_cpu`) lines 606-654.

External collaborators that the spec places out of scope (the polyhedral
set/map algebra, the generic tree construction and printing engine, the
pet printer and the verbatim-copy helpers living outside `src/`) are
modelled from the spec where a claim needs them; such definitions carry a
doc comment starting with "Modelled from the spec".
-/

namespace PpcgCpu

/-- An index expression of the generated AST (`isl_ast_expr`), synthesized by
the algebra collaborator; treated as an opaque handle. -/
abbrev AstExpr := Nat

/-- The data of a pet access expression that `cpu.c` reads from
`expr->acc.access`: the symbolic output-tuple name of the access relation
(`isl_map_get_tuple_name(.., isl_dim_out)`, `NULL` modelled as `none`),
the number of output dimensions (`isl_map_dim(.., isl_dim_out)`), and an
opaque identity for the access relation itself. -/
structure AccessData where
  name : Option String
  nOut : Nat
  mapId : Nat
  deriving DecidableEq

mutual
/-- A pet expression tree (`struct pet_expr`).  `nullE` models a `NULL`
`pet_expr *`.  An access expression carries its access data and its own
argument sub-expressions (`expr->args`); every other expression kind is
collapsed into `opE` since `foreach_access_expr` only distinguishes
`pet_expr_access` from the rest. -/
inductive PetExpr : Type where
  | nullE : PetExpr
  | access (d : AccessData) (args : ArgList) : PetExpr
  | opE (args : ArgList) : PetExpr

/-- The argument array `expr->args` of a pet expression. -/
inductive ArgList : Type where
  | nil : ArgList
  | cons (a : PetExpr) (tl : ArgList) : ArgList
end

/-- Reads `expr->acc.access` data; only access expressions have it. -/
def PetExpr.accData : PetExpr → Option AccessData
  | .access d _ => some d
  | _ => none

mutual
/-- Source `foreach_access_expr` (cpu.c:421-437): call `fn` on each access
expression in `expr`.  A `NULL` expression is a failure (`return -1`,
modelled as `none`); an access expression is a leaf (the callback is applied
and its arguments are not visited); any other expression visits its
arguments left to right, failing fast.  The C `int` result with the mutable
`user` pointer is modelled as `Option σ` state passing. -/
def foreach_access_expr {σ : Type} (fn : PetExpr → σ → Option σ) :
    PetExpr → σ → Option σ
  | .nullE, _ => none
  | .access d args, s => fn (.access d args) s
  | .opE args, s => foreach_access_args fn args s

/-- The argument loop of `foreach_access_expr` (cpu.c:432-434). -/
def foreach_access_args {σ : Type} (fn : PetExpr → σ → Option σ) :
    ArgList → σ → Option σ
  | .nil, s => some s
  | .cons a tl, s =>
    match foreach_access_expr fn a s with
    | none => none
    | some s2 => foreach_access_args fn tl s2
end

/-- Source `inc_n_access` (cpu.c:439-444): increment `stmt->n_access`. -/
def inc_n_access (_e : PetExpr) (n : Nat) : Option Nat :=
  some (n + 1)

/-- The per-access index list built by `add_access` (cpu.c:477-485): one
generated index expression per output dimension of the access relation, in
order.  `tr` abstracts the algebra pipeline of cpu.c:470-484 (compose the
access relation with the reversed schedule, convert to a piecewise
multi-affine expression, coalesce, and build one AST expression per output
dimension). -/
def accessGroup (tr : AccessData → Nat → AstExpr) (d : AccessData) :
    List AstExpr :=
  (List.range d.nOut).map (tr d)

/-- Source `add_access` (cpu.c:461-491): append the transformed index list of
an access expression to the statement's access array.  The C code reads
`expr->acc.access` unconditionally; it is only ever invoked on access
expressions, and applying it to anything else is undefined (`none`). -/
def add_access (tr : AccessData → Nat → AstExpr) (e : PetExpr)
    (s : List (List AstExpr)) : Option (List (List AstExpr)) :=
  match e.accData with
  | some d => some (s ++ [accessGroup tr d])
  | none => none

mutual
/-- The traversal-order list of access sub-expressions reached by
`foreach_access_expr`: access expressions are leaves, other expressions are
traversed left to right, and a `NULL` sub-expression poisons the whole
traversal. -/
def accessListE : PetExpr → Option (List AccessData)
  | .nullE => none
  | .access d _ => some [d]
  | .opE args => accessListA args

/-- Argument-list companion of `accessListE`. -/
def accessListA : ArgList → Option (List AccessData)
  | .nil => some []
  | .cons a tl =>
    match accessListE a with
    | none => none
    | some x =>
      match accessListA tl with
      | none => none
      | some y => some (x ++ y)
end

mutual
/-- Any run of `foreach_access_expr` whose callback always succeeds on access
expressions is a fold of the callback over the traversal-order access list. -/
theorem foreach_access_expr_eq_fold {σ : Type} (fn : PetExpr → σ → Option σ)
    (g : AccessData → σ → σ)
    (hfn : ∀ d args s, fn (.access d args) s = some (g d s))
    (e : PetExpr) (s : σ) :
    foreach_access_expr fn e s =
      (accessListE e).map (fun l => l.foldl (fun t d => g d t) s) := by
  cases e with
  | nullE => rfl
  | access d args => simp [foreach_access_expr, accessListE, hfn]
  | opE args =>
    simpa [foreach_access_expr, accessListE] using
      foreach_access_args_eq_fold fn g hfn args s

/-- Argument-list companion of `foreach_access_expr_eq_fold`. -/
theorem foreach_access_args_eq_fold {σ : Type} (fn : PetExpr → σ → Option σ)
    (g : AccessData → σ → σ)
    (hfn : ∀ d args s, fn (.access d args) s = some (g d s))
    (l : ArgList) (s : σ) :
    foreach_access_args fn l s =
      (accessListA l).map (fun ds => ds.foldl (fun t d => g d t) s) := by
  cases l with
  | nil => rfl
  | cons a tl =>
    have h1 := foreach_access_expr_eq_fold fn g hfn a s
    have h2 := foreach_access_args_eq_fold fn g hfn tl
    simp only [foreach_access_args, accessListA, h1]
    cases hx : accessListE a with
    | none => rfl
    | some x =>
      simp only [Option.map_some, h2]
      cases hy : accessListA tl with
      | none => rfl
      | some y => simp [List.foldl_append]
end

theorem foldl_count {α : Type} (l : List α) (s : Nat) :
    l.foldl (fun t _ => t + 1) s = s + l.length := by
  induction l generalizing s with
  | nil => simp
  | cons a tl ih => simp [List.foldl_cons, ih, Nat.add_assoc, Nat.add_comm 1]

theorem foldl_append_singleton {α β : Type} (f : α → β) (l : List α)
    (s : List β) :
    l.foldl (fun t d => t ++ [f d]) s = s ++ l.map f := by
  induction l generalizing s with
  | nil => simp
  | cons a tl ih => simp [List.foldl_cons, ih]

/-- The counting pass of `at_each_domain` (cpu.c:523-524) computes the length
of the traversal-order access list. -/
theorem count_pass_eq (e : PetExpr) (n : Nat) :
    foreach_access_expr inc_n_access e n =
      (accessListE e).map (fun l => n + l.length) := by
  have h := foreach_access_expr_eq_fold inc_n_access (fun _ t => t + 1)
    (fun _ _ _ => rfl) e n
  simpa [foldl_count] using h

/-- The filling pass of `at_each_domain` (cpu.c:535-539) collects exactly one
transformed index list per traversal-order access, in order. -/
theorem fill_pass_eq (tr : AccessData → Nat → AstExpr) (e : PetExpr)
    (s : List (List AstExpr)) :
    foreach_access_expr (add_access tr) e s =
      (accessListE e).map (fun l => s ++ l.map (accessGroup tr)) := by
  have h := foreach_access_expr_eq_fold (add_access tr)
    (fun d t => t ++ [accessGroup tr d])
    (fun d args s => by simp [add_access, PetExpr.accData]) e s
  simpa [foldl_append_singleton] using h

/-! ### Printing of accesses (cpu.c:247-354) -/

/-- A token of printed output: literal text emitted through
`isl_printer_print_str`, or a generated index expression emitted through
`isl_printer_print_ast_expr`. -/
inductive Tok where
  | str (s : String)
  | idx (e : AstExpr)
  deriving DecidableEq

/-- Source `print_access` (cpu.c:256-290).  When the original access relation
has no output-tuple name the single index expression at position 0 is
printed wrapped in parentheses (fetching position 0 of an empty list yields
a `NULL` expression and poisons the printer, modelled as `none`); otherwise
the name is printed followed by one bracketed index per element of the
transformed index list, in order. -/
def print_access (p : List Tok) (d : AccessData) (access : List AstExpr) :
    Option (List Tok) :=
  match d.name with
  | none =>
    match access with
    | [] => none
    | i :: _ => some (p ++ [Tok.str "(", Tok.idx i, Tok.str ")"])
  | some nm =>
    some (access.foldl (fun q i => q ++ [Tok.str "[", Tok.idx i, Tok.str "]"])
      (p ++ [Tok.str nm]))

/-- Source `print_access_expr` (cpu.c:318-327): print one access through the
shared cursor and advance the cursor by exactly one.  The C code reads
`expr->acc.access` (undefined on a non-access expression) and dereferences
the cursor (undefined once it has run past the access array); both are
modelled as `none`. -/
def print_access_expr (p : List Tok) (e : PetExpr)
    (cur : List (List AstExpr)) : Option (List Tok × List (List AstExpr)) :=
  match e.accData with
  | none => none
  | some d =>
    match cur with
    | [] => none
    | g :: rest => (print_access p d g).map (fun q => (q, rest))

mutual
/-- Modelled from the spec: `print_pet_expr` lives in `pet_printer.c`, which
is not under `src/`.  Per the spec (§4.3, §6) it re-emits the statement
body's text, walking the body in the same deterministic traversal order used
during construction, treating access sub-expressions as leaves and invoking
the access callback exactly once at each of them; the surrounding operator
text of non-access expressions is emitted verbatim around the recursive
prints. -/
def print_pet_expr
    (fn : List Tok → PetExpr → List (List AstExpr) →
      Option (List Tok × List (List AstExpr))) :
    PetExpr → List Tok → List (List AstExpr) →
      Option (List Tok × List (List AstExpr))
  | .nullE, _, _ => none
  | .access d args, p, cur => fn p (.access d args) cur
  | .opE args, p, cur =>
    match print_pet_args fn args (p ++ [Tok.str "op("]) cur with
    | none => none
    | some (q, c) => some (q ++ [Tok.str ")"], c)

/-- Modelled from the spec: argument traversal of `print_pet_expr`, in the
same left-to-right order as `foreach_access_expr`. -/
def print_pet_args
    (fn : List Tok → PetExpr → List (List AstExpr) →
      Option (List Tok × List (List AstExpr))) :
    ArgList → List Tok → List (List AstExpr) →
      Option (List Tok × List (List AstExpr))
  | .nil, p, cur => some (p, cur)
  | .cons a tl, p, cur =>
    match print_pet_expr fn a p cur with
    | none => none
    | some (q, c) => print_pet_args fn tl q c
end

mutual
/-- Compositional rendering of a statement body: every access sub-expression
is printed with its own transformed index list (no cursor).  This is the
intended meaning of the cursor-based printing pipeline. -/
def renderE (tr : AccessData → Nat → AstExpr) : PetExpr → Option (List Tok)
  | .nullE => none
  | .access d _ => print_access [] d (accessGroup tr d)
  | .opE args =>
    match renderA tr args with
    | none => none
    | some ts => some (Tok.str "op(" :: (ts ++ [Tok.str ")"]))

/-- Argument-list companion of `renderE`. -/
def renderA (tr : AccessData → Nat → AstExpr) : ArgList → Option (List Tok)
  | .nil => some []
  | .cons a tl =>
    match renderE tr a with
    | none => none
    | some x =>
      match renderA tr tl with
      | none => none
      | some y => some (x ++ y)
end

/-- An access is printable when it is named, or unnamed with at least one
index (the code comment at cpu.c:253-254 calls unnamed accesses "presumably
single-dimensional"). -/
def printableAcc (d : AccessData) : Bool :=
  match d.name with
  | some _ => true
  | none => decide (0 < d.nOut)

/-- A body is printable when its traversal succeeds and every access in it is
printable. -/
def printableBody (e : PetExpr) : Bool :=
  match accessListE e with
  | none => false
  | some ds => ds.all printableAcc

theorem foldl_brackets_shift (l : List AstExpr) (b : List Tok) :
    l.foldl (fun q i => q ++ [Tok.str "[", Tok.idx i, Tok.str "]"]) b =
      b ++ l.foldl (fun q i => q ++ [Tok.str "[", Tok.idx i, Tok.str "]"]) [] := by
  induction l generalizing b with
  | nil => simp
  | cons i tl ih =>
    rw [List.foldl_cons, List.foldl_cons, ih, ih ([] ++ _)]
    simp

theorem printable_print_access (d : AccessData)
    (tr : AccessData → Nat → AstExpr) (h : printableAcc d = true) (p : List Tok) :
    ∃ out, print_access [] d (accessGroup tr d) = some out ∧
      print_access p d (accessGroup tr d) = some (p ++ out) := by
  unfold printableAcc at h
  cases hn : d.name with
  | none =>
    rw [hn] at h
    have hpos : 0 < d.nOut := by simpa using h
    cases hr : accessGroup tr d with
    | nil =>
      exfalso
      have := congrArg List.length hr
      simp [accessGroup] at this
      omega
    | cons i rest =>
      refine ⟨[Tok.str "(", Tok.idx i, Tok.str ")"], ?_, ?_⟩ <;>
        simp [print_access, hn, hr]
  | some nm =>
    refine ⟨[Tok.str nm] ++ (accessGroup tr d).foldl
      (fun q i => q ++ [Tok.str "[", Tok.idx i, Tok.str "]"]) [], ?_, ?_⟩
    · simp only [print_access, hn]
      rw [foldl_brackets_shift]
      simp
    · simp only [print_access, hn]
      rw [foldl_brackets_shift]
      simp

mutual
/-- Cursor-based printing refines compositional rendering: feeding the
traversal-order transformed groups of `e` ahead of any further cursor
content prints exactly the compositional rendering of `e` and consumes
exactly the groups of `e`. -/
theorem print_pet_expr_spec (tr : AccessData → Nat → AstExpr) (e : PetExpr)
    (ds : List AccessData) (hc : accessListE e = some ds)
    (hok : ∀ d ∈ ds, printableAcc d = true) (p : List Tok)
    (rest : List (List AstExpr)) :
    ∃ out, renderE tr e = some out ∧
      print_pet_expr print_access_expr e p (ds.map (accessGroup tr) ++ rest) =
        some (p ++ out, rest) := by
  cases e with
  | nullE => exact absurd hc (by simp [accessListE])
  | access d args =>
    have hds : ds = [d] := by
      have : some [d] = some ds := by rw [← hc]; rfl
      simpa using this.symm
    subst hds
    have hd : printableAcc d = true := hok d (by simp)
    obtain ⟨out, h0, hp⟩ := printable_print_access d tr hd p
    refine ⟨out, h0, ?_⟩
    simp only [print_pet_expr, print_access_expr, PetExpr.accData,
      List.map_cons, List.map_nil, List.nil_append, List.cons_append, hp]
    rfl
  | opE args =>
    have hca : accessListA args = some ds := by
      have : accessListE (.opE args) = accessListA args := rfl
      rw [← this, hc]
    obtain ⟨out, h0, hp⟩ := print_pet_args_spec tr args ds hca hok
      (p ++ [Tok.str "op("]) rest
    refine ⟨Tok.str "op(" :: (out ++ [Tok.str ")"]), ?_, ?_⟩
    · show (match renderA tr args with
        | none => none
        | some ts => some (Tok.str "op(" :: (ts ++ [Tok.str ")"]))) = _
      rw [h0]
    · show (match print_pet_args print_access_expr args
          (p ++ [Tok.str "op("]) (ds.map (accessGroup tr) ++ rest) with
        | none => none
        | some (q, c) => some (q ++ [Tok.str ")"], c)) = _
      rw [hp]
      simp

/-- Argument-list companion of `print_pet_expr_spec`. -/
theorem print_pet_args_spec (tr : AccessData → Nat → AstExpr) (l : ArgList)
    (ds : List AccessData) (hc : accessListA l = some ds)
    (hok : ∀ d ∈ ds, printableAcc d = true) (p : List Tok)
    (rest : List (List AstExpr)) :
    ∃ out, renderA tr l = some out ∧
      print_pet_args print_access_expr l p (ds.map (accessGroup tr) ++ rest) =
        some (p ++ out, rest) := by
  cases l with
  | nil =>
    have hds : ds = [] := by
      have : some ([] : List AccessData) = some ds := by rw [← hc]; rfl
      simpa using this.symm
    subst hds
    exact ⟨[], rfl, by simp [print_pet_args]⟩
  | cons a tl =>
    rw [accessListA] at hc
    cases hx : accessListE a with
    | none => rw [hx] at hc; exact absurd hc (by simp)
    | some x =>
      rw [hx] at hc
      cases hy : accessListA tl with
      | none => rw [hy] at hc; exact absurd hc (by simp)
      | some y =>
        rw [hy] at hc
        have hds : ds = x ++ y := by simpa using hc.symm
        subst hds
        obtain ⟨out1, h10, h1⟩ := print_pet_expr_spec tr a x hx
          (fun d hd => hok d (by simp [hd])) p (y.map (accessGroup tr) ++ rest)
        obtain ⟨out2, h20, h2⟩ := print_pet_args_spec tr tl y hy
          (fun d hd => hok d (by simp [hd])) (p ++ out1) rest
        refine ⟨out1 ++ out2, ?_, ?_⟩
        · show (match renderE tr a with
            | none => none
            | some x =>
              match renderA tr tl with
              | none => none
              | some y => some (x ++ y)) = _
          rw [h10, h20]
        · simp only [print_pet_args, List.map_append, List.append_assoc, h1, h2]
end

/-! ### Statements, the SCoP model, and leaf annotation (cpu.c:292-311,
497-550) -/

/-- A statement instance: the identity of the statement together with its
iteration vector.  Used as the domain of the schedule and of dependence
relations. -/
abbrev Inst := Nat × List Int

/-- A pet statement (`struct pet_stmt`): the tuple identity of its iteration
domain (`isl_set_get_tuple_id(stmt->domain)`, an `isl_id` modelled by a
number compared by pointer identity in the C code) and its body expression
tree. -/
structure PetStmt where
  id : Nat
  body : PetExpr

/-- A pet array as the driver sees it: its name and the `declared` and
`exposed` flags read by `any_hidden_declarations`. -/
structure PpcgArray where
  name : String
  declared : Bool
  exposed : Bool
  deriving DecidableEq

/-- Modelled from the spec: the shape of the tree that the external
construction engine materializes from the schedule — the engine itself is
the out-of-scope collaborator (§6).  Each for node carries the verdict that
`ast_schedule_dim_is_parallel` returns for the engine-internal schedule
prefix at that node; `seq` composes siblings. -/
inductive Shape where
  | leafS (stmtId : Nat) : Shape
  | forS (par : Bool) (body : Shape) : Shape
  | seqS (fst snd : Shape) : Shape
  deriving DecidableEq

/-- A generated tree node after construction, carrying its annotation:
for nodes carry the `is_openmp` flag of `ast_node_userinfo`; leaves carry
the statement identity they resolve. -/
inductive ANode where
  | leafA (stmtId : Nat) : ANode
  | forA (is_openmp : Bool) (body : ANode) : ANode
  | seqA (fst snd : ANode) : ANode
  deriving DecidableEq

/-- The ppcg SCoP model (`struct ppcg_scop`), as read by `cpu.c`: the ordered
statement list, the ordered array list, the flow and false dependence
relations (finite relations over statement instances), and the tree shape
the engine derives from the schedule. -/
structure PpcgScop where
  stmts : List PetStmt
  arrays : List PpcgArray
  dep_flow : List (Inst × Inst)
  dep_false : List (Inst × Inst)
  shape : Shape

/-- Source `find_stmt` (cpu.c:294-311): linear scan of `scop->stmts` for the
first statement whose domain tuple identity equals `id`; reaching the end
raises `isl_error_internal` ("statement not found") and yields `NULL`. -/
def find_stmt (scop : PpcgScop) (id : Nat) : Option PetStmt :=
  scop.stmts.find? (fun s => s.id == id)

/-- The annotation `struct ppcg_stmt` attached to a generated leaf: the
resolved statement and the list of transformed index-expression lists, one
per access sub-expression of the body, in traversal order. -/
structure PpcgStmt where
  stmt : PetStmt
  access : List (List AstExpr)

/-- Source `at_each_domain` (cpu.c:497-550): resolve the statement identity
carried by the leaf, count the accesses of its body, fill one transformed
index list per access, and return the annotation.  Failure of the lookup or
of either traversal frees the partial annotation and the node (`goto
error`), modelled as `none`.  `tr` abstracts the algebra pipeline; the
plumbing that extracts `leafId` from the leaf's call expression and the
allocation steps are kept implicit. -/
def at_each_domain (scop : PpcgScop) (tr : AccessData → Nat → AstExpr)
    (leafId : Nat) : Option PpcgStmt :=
  match find_stmt scop leafId with
  | none => none
  | some st =>
    match foreach_access_expr inc_n_access st.body 0 with
    | none => none
    | some _ =>
      match foreach_access_expr (add_access tr) st.body [] with
      | none => none
      | some gs => some { stmt := st, access := gs }

/-- Modelled from the spec: the external engine invokes the `at_each_domain`
hook at every generated leaf, and a hook failure (a freed node) fails the
entire construction pass — the partial tree is released and no tree is
produced (§7). -/
def buildPass (scop : PpcgScop) (tr : AccessData → Nat → AstExpr) :
    List Nat → Option (List PpcgStmt)
  | [] => some []
  | i :: is =>
    match at_each_domain scop tr i with
    | none => none
    | some s =>
      match buildPass scop tr is with
      | none => none
      | some l => some (s :: l)

/-! ### The parallelism analysis (cpu.c:119-159) -/

/-- The part of the `isl_ast_build` state that `ast_schedule_dim_is_parallel`
reads: the number of output dimensions of the current schedule space, and
the (single-valued) schedule that maps statement instances to timestamp
vectors. -/
structure AstBuildModel where
  dOut : Nat
  sched : Inst → List Int

/-- The finite-relation model of `isl_map_equate(map, isl_dim_out, i,
isl_dim_in, i)`: keep the pairs whose input and output vectors agree in
dimension `i`. -/
def isl_map_equate (r : List (List Int × List Int)) (i : Nat) :
    List (List Int × List Int) :=
  r.filter (fun p => decide (p.1.getD i 0 = p.2.getD i 0))

/-- The dependences translated into schedule (time) space, cpu.c:132-135:
the union of flow and false dependences with the schedule applied to both
domain and range. -/
def scheduledDeps (build : AstBuildModel) (scop : PpcgScop) :
    List (List Int × List Int) :=
  (scop.dep_flow ++ scop.dep_false).map
    (fun q => (build.sched q.1, build.sched q.2))

/-- Source `ast_schedule_dim_is_parallel` (cpu.c:119-159).  `dimension` is
the last dimension of the schedule space (the C `unsigned` wraps if the
space had no dimensions; a for node always has at least one, and all
theorems below assume `1 ≤ dOut`).  If the scheduled dependences are empty
the loop is parallel.  Otherwise all dimensions before the last are equated
across each dependence pair, and the loop is parallel iff the result is a
subset of the universe map equating the last dimension. -/
def ast_schedule_dim_is_parallel (build : AstBuildModel) (scop : PpcgScop) :
    Bool :=
  let dimension := build.dOut - 1
  let deps := scheduledDeps build scop
  if deps.isEmpty then
    true
  else
    let schedule_deps := (List.range dimension).foldl isl_map_equate deps
    schedule_deps.all
      (fun p => decide (p.1.getD dimension 0 = p.2.getD dimension 0))

/-! ### OpenMP build hooks (cpu.c:163-245) -/

/-- Source `mark_openmp_parallel` (cpu.c:163-174), returning the pair
(`node_info->is_openmp`, updated `build_info->in_parallel_for`): when the
nesting flag is set the node is left unmarked and the flag unchanged;
otherwise, when the analyzer reports the dimension parallel, both the node
mark and the nesting flag are set. -/
def mark_openmp_parallel (is_parallel : Bool) (in_parallel_for : Bool) :
    Bool × Bool :=
  if in_parallel_for then (false, in_parallel_for)
  else if is_parallel then (true, true)
  else (false, in_parallel_for)

/-- Source `ast_build_after_for` (cpu.c:228-245): after a for node completes,
the nesting flag is cleared exactly when the node's own annotation is
marked openmp parallel. -/
def ast_build_after_for (is_openmp : Bool) (in_parallel_for : Bool) : Bool :=
  if is_openmp then false else in_parallel_for

/-- Modelled from the spec: the engine builds the tree in one recursive
descent, invoking `ast_build_before_for` (whose work is
`mark_openmp_parallel`) before each for node's body is built and
`ast_build_after_for` after it, threading `build_info->in_parallel_for`
through the whole pass.  The function returns the annotated tree together
with the flag value after the node. -/
def buildWithHooks : Shape → Bool → ANode × Bool
  | .leafS i, f => (.leafA i, f)
  | .forS par b, f =>
    let m := mark_openmp_parallel par f
    let r := buildWithHooks b m.2
    (.forA m.1 r.1, ast_build_after_for m.1 r.2)
  | .seqS a b, f =>
    let ra := buildWithHooks a f
    let rb := buildWithHooks b ra.2
    (.seqA ra.1 rb.1, rb.2)

/-- The tree built when the openmp option is off (cpu.c:573-583): the for
hooks are not registered, so no node carries an openmp annotation. -/
def buildNoHooks : Shape → ANode
  | .leafS i => .leafA i
  | .forS _ b => .forA false (buildNoHooks b)
  | .seqS a b => .seqA (buildNoHooks a) (buildNoHooks b)

/-- No node of the tree is marked openmp parallel. -/
def ANode.noMarks : ANode → Bool
  | .leafA _ => true
  | .forA m b => !m && b.noMarks
  | .seqA a b => a.noMarks && b.noMarks

/-- Every root-to-leaf path of the tree contains at most one node marked
openmp parallel. -/
def ANode.atMostOneMarkPerPath : ANode → Bool
  | .leafA _ => true
  | .forA m b => if m then b.noMarks else b.atMostOneMarkPerPath
  | .seqA a b => a.atMostOneMarkPerPath && b.atMostOneMarkPerPath

/-! ### Printing the tree (cpu.c:357-417, 552-601) -/

/-- A token of the printed tree: the OpenMP pragma line emitted by
`print_for_with_openmp`, the default for-loop printing delegated to the
engine, or a user statement line printed by `print_user`. -/
inductive TreeTok where
  | pragmaOmpFor
  | forHead
  | forEnd
  | stmtLine (stmtId : Nat)
  deriving DecidableEq

/-- Source `print_for` together with `print_for_with_openmp` and `print_user`
(cpu.c:332-417): a for node whose annotation is marked openmp parallel is
preceded by exactly one pragma line, then printed as a normal for node;
leaves print their statement line. -/
def print_tree : ANode → List TreeTok
  | .leafA i => [.stmtLine i]
  | .forA m b =>
    (if m then [TreeTok.pragmaOmpFor] else []) ++
      (TreeTok.forHead :: (print_tree b ++ [TreeTok.forEnd]))
  | .seqA a b => print_tree a ++ print_tree b

/-- The options surface the driver reads (`struct ppcg_options`). -/
structure PpcgOptions where
  openmp : Bool
  deriving DecidableEq

/-- Source `print_scop` (cpu.c:554-601): materialize the tree from the
schedule (with the openmp hooks registered exactly when the option is on,
cpu.c:573-583) and print it through the registered print callbacks. -/
def print_scop (scop : PpcgScop) (options : PpcgOptions) : List TreeTok :=
  let tree :=
    if options.openmp then (buildWithHooks scop.shape false).1
    else buildNoHooks scop.shape
  print_tree tree

/-! ### Output-file name derivation (cpu.c:63-87) -/

/-- The `strrchr` C library function on character lists: the suffix starting
at the last occurrence of `c`, or `none` when `c` does not occur. -/
def strrchr : List Char → Char → Option (List Char)
  | [], _ => none
  | a :: rest, c =>
    match strrchr rest c with
    | some suf => some suf
    | none => if a = c then some (a :: rest) else none

/-- The `base` computation of `get_output_file` (cpu.c:71-75): the final path
component, i.e. everything after the last '/', or the whole input when it
has no '/'. -/
def get_base (input : List Char) : List Char :=
  match strrchr input '/' with
  | some suf => suf.drop 1
  | none => input

/-- The `name` computation of `get_output_file` (cpu.c:63-87): keep the base
name up to its last '.', then append the ".ppcg" marker and the original
extension (the extension includes the '.').  When the base name has no '.',
`ext` is `NULL` and the final `strcpy(name + len + ..., ext)` copies from a
null pointer — undefined behavior, modelled as `none`.  The `fopen` of the
result and the explicit-output override are part of the driver model. -/
def output_file_name (input : List Char) : Option (List Char) :=
  match strrchr (get_base input) '.' with
  | none => none
  | some ext =>
    some ((get_base input).take ((get_base input).length - ext.length) ++
      ".ppcg".toList ++ ext)

/-! ### The driver (cpu.c:606-654) -/

/-- Source `any_hidden_declarations` (cpu.c:606-618): does the SCoP refer to
an array that is declared but not exposed?  A `NULL` SCoP has none. -/
def any_hidden_declarations : Option PpcgScop → Bool
  | none => false
  | some scop => scop.arrays.any (fun a => a.declared && !a.exposed)

/-- A token of the driver's output file: verbatim text (the copied
surroundings of the SCoP and the generated-code marker comment), a printed
array declaration, the braces of the nested declaration block
(`ppcg_start_block` and `ppcg_end_block`), or a token of the printed tree. -/
inductive OutTok where
  | text (s : String)
  | declTok (a : PpcgArray)
  | openBlock
  | closeBlock
  | treeTok (t : TreeTok)
  deriving DecidableEq

/-- Modelled from the spec: `ppcg_print_exposed_declarations` (print.c, not
under `src/`) prints one declaration per declared-and-exposed array of the
SCoP, at the current scope. -/
def ppcg_print_exposed_declarations (scop : PpcgScop) : List OutTok :=
  (scop.arrays.filter (fun a => a.declared && a.exposed)).map OutTok.declTok

/-- Modelled from the spec: `ppcg_print_hidden_declarations` (print.c, not
under `src/`) prints one declaration per declared-and-not-exposed array of
the SCoP, at the current scope. -/
def ppcg_print_hidden_declarations (scop : PpcgScop) : List OutTok :=
  (scop.arrays.filter (fun a => a.declared && !a.exposed)).map OutTok.declTok

/-- The text of the input file around the SCoP: `copy_before_scop` and
`copy_after_scop` (rewrite.c, not under `src/`; modelled from the spec)
copy these two segments verbatim to the output. -/
structure InputFile where
  pre : String
  post : String
  deriving DecidableEq

/-- The marker comment emitted at cpu.c:635. -/
def cpuMarker : String := "/* ppcg generated CPU code */\n\n"

/-- Source `generate_cpu` (cpu.c:620-654).  Returns the C result code
together with the sequence of output tokens.  A `NULL` SCoP returns -1
immediately.  The results of `fopen(input, "r")` and of the `fopen` inside
`get_output_file` — modelled by the two boolean arguments — are never
inspected by the C code: no control path depends on them (writing through a
failed handle is undefined behavior in C, and no failure is ever reported).
Then the driver copies the pre-SCoP text, prints the marker comment, prints
the exposed declarations, opens one block holding the hidden declarations
exactly when `any_hidden_declarations` holds, prints the generated tree,
closes the block if one was opened, copies the post-SCoP text, and returns
0. -/
def generate_cpu (ps : Option PpcgScop) (options : PpcgOptions)
    (inputOpenOk outputOpenOk : Bool) (input : InputFile) :
    Int × List OutTok :=
  match ps with
  | none => (-1, [])
  | some scop =>
    let hidden := any_hidden_declarations (some scop)
    (0,
      [OutTok.text input.pre, OutTok.text cpuMarker] ++
        ppcg_print_exposed_declarations scop ++
        (if hidden then
          OutTok.openBlock :: ppcg_print_hidden_declarations scop
        else []) ++
        (print_scop scop options).map OutTok.treeTok ++
        (if hidden then [OutTok.closeBlock] else []) ++
        [OutTok.text input.post])

/-! ### Claim C1 -/

/-- C1: for every statement leaf, the annotation built by `at_each_domain`
contains one transformed index-expression list per access sub-expression of
the statement's body, in the body's traversal order (and as many as the
counting pass found), and the printer consumes them through the shared
cursor advanced exactly once per printed access: printing the body with the
groups placed ahead of any remaining cursor content consumes exactly the
groups, in order, leaves the rest of the cursor untouched, and renders each
access with its own group (the compositional rendering `renderE`). -/
theorem c1_cursor_pairing (b : PetExpr) (tr : AccessData → Nat → AstExpr)
    (n : Nat) (hcount : foreach_access_expr inc_n_access b 0 = some n)
    (hok : printableBody b = true) (p : List Tok)
    (rest : List (List AstExpr)) :
    ∃ ds gs out,
      accessListE b = some ds ∧
      foreach_access_expr (add_access tr) b [] = some gs ∧
      gs = ds.map (accessGroup tr) ∧
      gs.length = n ∧
      renderE tr b = some out ∧
      print_pet_expr print_access_expr b p (gs ++ rest) =
        some (p ++ out, rest) := by
  rw [count_pass_eq] at hcount
  cases hds : accessListE b with
  | none => rw [hds] at hcount; exact absurd hcount (by simp)
  | some ds =>
    rw [hds] at hcount
    have hn : ds.length = n := by simpa using hcount
    have hall : ∀ d ∈ ds, printableAcc d = true := by
      unfold printableBody at hok
      rw [hds] at hok
      simpa [List.all_eq_true] using hok
    obtain ⟨out, hr, hp⟩ := print_pet_expr_spec tr b ds hds hall p rest
    refine ⟨ds, ds.map (accessGroup tr), out, rfl, ?_, rfl, ?_, hr, hp⟩
    · rw [fill_pass_eq, hds]; simp
    · simpa using hn

/-- An example statement body, `op(C, op(A, B))`: three named accesses in
traversal order C, A, B. -/
def bodyEx : PetExpr :=
  PetExpr.opE (ArgList.cons
    (PetExpr.access ⟨some "C", 1, 0⟩ ArgList.nil)
    (ArgList.cons (PetExpr.opE (ArgList.cons
      (PetExpr.access ⟨some "A", 1, 1⟩ ArgList.nil)
      (ArgList.cons (PetExpr.access ⟨some "B", 1, 2⟩ ArgList.nil)
        ArgList.nil))) ArgList.nil))

/-- An example transform standing for the algebra pipeline: the index for
output dimension `i` of access relation `d` is the handle
`d.mapId * 10 + i`. -/
def trEx : AccessData → Nat → AstExpr := fun d i => d.mapId * 10 + i

/-- Concrete instantiation of `c1_cursor_pairing`: `bodyEx` is counted to 3
accesses, filled with the three groups in traversal order, and printed by
the cursor consuming exactly those three groups and leaving the rest of the
cursor untouched. -/
theorem c1_cursor_pairing_witness :
    (foreach_access_expr inc_n_access bodyEx 0 = some 3) ∧
    (printableBody bodyEx = true) ∧
    (∃ ds gs out,
      accessListE bodyEx = some ds ∧
      foreach_access_expr (add_access trEx) bodyEx [] = some gs ∧
      gs = ds.map (accessGroup trEx) ∧
      gs.length = 3 ∧
      renderE trEx bodyEx = some out ∧
      print_pet_expr print_access_expr bodyEx [] (gs ++ [[99]]) =
        some ([] ++ out, [[99]])) :=
  ⟨rfl, rfl, c1_cursor_pairing bodyEx trEx 3 rfl rfl [] [[99]]⟩

/-! ### Claim C9 -/

/-- C9: an access whose original relation carries no symbolic output-tuple
name prints as its single index expression wrapped in parentheses, with no
array name and no subscript brackets; a named access prints as the name
followed by one bracketed index per output dimension of the access
relation, in order. -/
theorem c9_access_print_format (p : List Tok) (d : AccessData)
    (tr : AccessData → Nat → AstExpr) :
    (d.name = none → d.nOut = 1 →
      print_access p d (accessGroup tr d) =
        some (p ++ [Tok.str "(", Tok.idx (tr d 0), Tok.str ")"])) ∧
    (∀ nm, d.name = some nm →
      print_access p d (accessGroup tr d) =
        some (p ++ [Tok.str nm] ++
          (List.range d.nOut).flatMap
            (fun i => [Tok.str "[", Tok.idx (tr d i), Tok.str "]"]))) := by
  constructor
  · intro hn h1
    simp [print_access, hn, accessGroup, h1, List.range_succ]
  · intro nm hn
    have hfold : ∀ (l : List AstExpr) (b : List Tok),
        l.foldl (fun q i => q ++ [Tok.str "[", Tok.idx i, Tok.str "]"]) b =
          b ++ l.flatMap (fun i => [Tok.str "[", Tok.idx i, Tok.str "]"]) := by
      intro l
      induction l with
      | nil => simp
      | cons i tl ih => intro b; simp [List.foldl_cons, ih]
    simp [print_access, hn, accessGroup, hfold, List.flatMap_map,
      List.append_assoc]

/-- Concrete instantiation of `c9_access_print_format`: an unnamed
single-dimensional access prints as a parenthesized bare expression, and a
named two-dimensional access prints as `A[i0][i1]`. -/
theorem c9_access_print_format_witness :
    ((AccessData.mk none 1 7).name = none ∧
      print_access [] ⟨none, 1, 7⟩ (accessGroup (fun d i => d.mapId + i)
          ⟨none, 1, 7⟩) =
        some ([] ++ [Tok.str "(", Tok.idx 7, Tok.str ")"])) ∧
    ((AccessData.mk (some "A") 2 5).name = some "A" ∧
      print_access [] ⟨some "A", 2, 5⟩ (accessGroup (fun d i => d.mapId + i)
          ⟨some "A", 2, 5⟩) =
        some ([] ++ [Tok.str "A"] ++
          (List.range 2).flatMap
            (fun i => [Tok.str "[", Tok.idx (5 + i), Tok.str "]"]))) :=
  ⟨⟨rfl, (c9_access_print_format [] ⟨none, 1, 7⟩
      (fun d i => d.mapId + i)).1 rfl rfl⟩,
    ⟨rfl, (c9_access_print_format [] ⟨some "A", 2, 5⟩
      (fun d i => d.mapId + i)).2 "A" rfl⟩⟩

/-! ### Claim C10 -/

/-- C10: the body traversal treats an access node as a leaf — the callback
is applied to the access expression itself and its argument sub-expressions
are never visited — and a null expression is a failure; consequently the
counting pass and the filling pass of `at_each_domain` agree: whenever
counting yields `n`, filling yields exactly `n` transformed groups. -/
theorem c10_traversal_semantics :
    (∀ (σ : Type) (fn : PetExpr → σ → Option σ) (s : σ),
      foreach_access_expr fn PetExpr.nullE s = none) ∧
    (∀ (σ : Type) (fn : PetExpr → σ → Option σ) (d : AccessData)
        (args : ArgList) (s : σ),
      foreach_access_expr fn (PetExpr.access d args) s =
        fn (PetExpr.access d args) s) ∧
    (∀ (b : PetExpr) (tr : AccessData → Nat → AstExpr) (n : Nat),
      foreach_access_expr inc_n_access b 0 = some n →
      ∃ gs, foreach_access_expr (add_access tr) b [] = some gs ∧
        gs.length = n) := by
  refine ⟨fun _ _ _ => rfl, fun _ _ _ _ _ => rfl, fun b tr n hcount => ?_⟩
  rw [count_pass_eq] at hcount
  cases hds : accessListE b with
  | none => rw [hds] at hcount; exact absurd hcount (by simp)
  | some ds =>
    rw [hds] at hcount
    refine ⟨ds.map (accessGroup tr), ?_, ?_⟩
    · rw [fill_pass_eq, hds]; simp
    · simpa using hcount

/-- Concrete instantiation of `c10_traversal_semantics`: a body that is one
access containing another access among its arguments counts as a single
access (the inner one is never visited), and the filling pass produces a
single group. -/
theorem c10_traversal_semantics_witness :
    (foreach_access_expr inc_n_access
        (PetExpr.access ⟨some "A", 1, 0⟩
          (ArgList.cons (PetExpr.access ⟨some "B", 1, 1⟩ ArgList.nil)
            ArgList.nil)) 0 = some 1) ∧
    (∃ gs, foreach_access_expr (add_access (fun d i => d.mapId + i))
        (PetExpr.access ⟨some "A", 1, 0⟩
          (ArgList.cons (PetExpr.access ⟨some "B", 1, 1⟩ ArgList.nil)
            ArgList.nil)) [] = some gs ∧ gs.length = 1) :=
  ⟨rfl, c10_traversal_semantics.2.2 _ (fun d i => d.mapId + i) 1 rfl⟩

/-! ### Claim C4 -/

/-- C4: when a generated leaf's statement identity matches no statement of
the SCoP's statement list, the lookup fails (`isl_die`, yielding `NULL`),
the leaf hook releases its partial annotation and fails (`none`), and the
whole generation pass produces no tree at all rather than a truncated one. -/
theorem c4_lookup_failure_fatal (scop : PpcgScop)
    (tr : AccessData → Nat → AstExpr) (ids : List Nat) (id : Nat)
    (hmem : id ∈ ids) (hno : ∀ st ∈ scop.stmts, st.id ≠ id) :
    find_stmt scop id = none ∧ at_each_domain scop tr id = none ∧
    buildPass scop tr ids = none := by
  have hf : find_stmt scop id = none := by
    apply List.find?_eq_none.mpr
    intro st hst
    simpa using hno st hst
  have ha : at_each_domain scop tr id = none := by
    unfold at_each_domain
    rw [hf]
  refine ⟨hf, ha, ?_⟩
  induction ids with
  | nil => cases hmem
  | cons a tl ih =>
    rcases List.mem_cons.mp hmem with h | h
    · subst h
      unfold buildPass
      rw [ha]
    · unfold buildPass
      cases at_each_domain scop tr a with
      | none => rfl
      | some s => rw [ih h]

/-- A SCoP with a single statement of identity 1, used by concrete
instantiations. -/
def scopEx4 : PpcgScop :=
  { stmts := [⟨1, bodyEx⟩], arrays := [], dep_flow := [], dep_false := [],
    shape := .leafS 1 }

/-- Concrete instantiation of `c4_lookup_failure_fatal`: a pass whose second
leaf carries identity 5, which no statement of the SCoP has, fails as a
whole. -/
theorem c4_lookup_failure_fatal_witness :
    (5 ∈ [1, 5]) ∧ (∀ st ∈ scopEx4.stmts, st.id ≠ 5) ∧
    (find_stmt scopEx4 5 = none ∧ at_each_domain scopEx4 trEx 5 = none ∧
      buildPass scopEx4 trEx [1, 5] = none) :=
  ⟨by decide, by decide,
    c4_lookup_failure_fatal scopEx4 trEx [1, 5] 5 (by decide) (by decide)⟩

/-! ### Claim C2 -/

theorem foldl_equate_range (r : List (List Int × List Int)) (k : Nat) :
    (List.range k).foldl isl_map_equate r =
      r.filter (fun p => decide (∀ i < k, p.1.getD i 0 = p.2.getD i 0)) := by
  induction k with
  | zero =>
    simp only [List.range_zero, List.foldl_nil]
    symm
    rw [List.filter_eq_self]
    intro p _
    simp
  | succ k ih =>
    rw [List.range_succ, List.foldl_append, List.foldl_cons, List.foldl_nil,
      ih]
    unfold isl_map_equate
    rw [List.filter_filter]
    apply List.filter_congr
    intro p _
    simp [Nat.forall_lt_succ, Bool.and_comm]

/-- C2: the Analyzer returns parallel when the union of flow and false
dependences composed with the schedule on domain and range is empty;
otherwise it returns parallel iff every composed dependence pair whose
vectors agree on all dimensions strictly before the last schedule dimension
also agrees on the last dimension — and the equating step is vacuous when
the schedule space has a single dimension. -/
theorem c2_parallel_iff (build : AstBuildModel) (scop : PpcgScop)
    (hd : 1 ≤ build.dOut) :
    (build.dOut = 1 →
      (List.range (build.dOut - 1)).foldl isl_map_equate
          (scheduledDeps build scop) = scheduledDeps build scop) ∧
    (ast_schedule_dim_is_parallel build scop = true ↔
      (scheduledDeps build scop = [] ∨
        ∀ p ∈ scheduledDeps build scop,
          (∀ i < build.dOut - 1, p.1.getD i 0 = p.2.getD i 0) →
            p.1.getD (build.dOut - 1) 0 = p.2.getD (build.dOut - 1) 0)) := by
  constructor
  · intro h1
    rw [h1]
    simp
  · unfold ast_schedule_dim_is_parallel
    cases he : (scheduledDeps build scop).isEmpty with
    | true =>
      have : scheduledDeps build scop = [] := by
        simpa [List.isEmpty_iff] using he
      simp [this]
    | false =>
      have hne : ¬ scheduledDeps build scop = [] := by
        simpa [List.isEmpty_iff] using he
      simp only [he, Bool.false_eq_true, if_false, foldl_equate_range,
        List.all_eq_true, List.mem_filter]
      constructor
      · intro h
        refine Or.inr (fun p hp hpre => ?_)
        have := h p ⟨hp, by simpa using hpre⟩
        simpa using this
      · rintro (h | h)
        · exact absurd h hne
        · rintro p ⟨hp, hpre⟩
          have := h p hp (by simpa using hpre)
          simpa using this

/-- A build state with a two-dimensional schedule space whose schedule is
the iteration vector itself, and a SCoP with one flow dependence carried by
the second dimension. -/
def buildEx2 : AstBuildModel := ⟨2, fun q => q.2⟩

/-- A SCoP with a single flow dependence from instance (0, 0) to instance
(0, 1). -/
def scopEx2 : PpcgScop :=
  { stmts := [], arrays := [],
    dep_flow := [((0, [0, 0]), (0, [0, 1]))], dep_false := [],
    shape := .leafS 0 }

/-- Concrete instantiation of `c2_parallel_iff` at a two-dimensional
schedule with one dependence pair. -/
theorem c2_parallel_iff_witness :
    (1 ≤ buildEx2.dOut) ∧
    ((buildEx2.dOut = 1 →
      (List.range (buildEx2.dOut - 1)).foldl isl_map_equate
          (scheduledDeps buildEx2 scopEx2) = scheduledDeps buildEx2 scopEx2) ∧
    (ast_schedule_dim_is_parallel buildEx2 scopEx2 = true ↔
      (scheduledDeps buildEx2 scopEx2 = [] ∨
        ∀ p ∈ scheduledDeps buildEx2 scopEx2,
          (∀ i < buildEx2.dOut - 1, p.1.getD i 0 = p.2.getD i 0) →
            p.1.getD (buildEx2.dOut - 1) 0 =
              p.2.getD (buildEx2.dOut - 1) 0))) :=
  ⟨by decide, c2_parallel_iff buildEx2 scopEx2 (by decide)⟩

/-! ### Claim C3 -/

theorem buildWithHooks_inside_parallel (s : Shape) :
    (buildWithHooks s true).1.noMarks = true ∧
    (buildWithHooks s true).2 = true := by
  induction s with
  | leafS i => exact ⟨rfl, rfl⟩
  | forS par b ih =>
    simp [buildWithHooks, mark_openmp_parallel, ast_build_after_for,
      ANode.noMarks, ih.1, ih.2]
  | seqS a b iha ihb =>
    simp [buildWithHooks, ANode.noMarks, iha.1, iha.2, ihb.1, ihb.2]

theorem buildWithHooks_path_invariant (s : Shape) :
    (buildWithHooks s false).1.atMostOneMarkPerPath = true ∧
    (buildWithHooks s false).2 = false := by
  induction s with
  | leafS i => exact ⟨rfl, rfl⟩
  | forS par b ih =>
    cases par with
    | false =>
      simp [buildWithHooks, mark_openmp_parallel, ast_build_after_for,
        ANode.atMostOneMarkPerPath, ih.1, ih.2]
    | true =>
      have h := buildWithHooks_inside_parallel b
      simp [buildWithHooks, mark_openmp_parallel, ast_build_after_for,
        ANode.atMostOneMarkPerPath, h.1, h.2]
  | seqS a b iha ihb =>
    simp [buildWithHooks, ANode.atMostOneMarkPerPath, iha.1, iha.2, ihb.1,
      ihb.2]

/-- C3: during a construction pass started with a clear nesting flag, the
pre-loop hook marks a loop parallel only when the flag is clear (so no loop
nested under an open marked-parallel ancestor is ever marked — a subtree
built with the flag set carries no mark at all), the post-loop hook clears
the flag exactly when the completed node's own annotation is parallel, and
consequently every root-to-leaf path of the resulting tree carries at most
one openmp-parallel mark, while sibling loops may independently both be
marked. -/
theorem c3_nesting_invariant :
    (∀ par, (mark_openmp_parallel par true).1 = false ∧
      (mark_openmp_parallel par true).2 = true) ∧
    (∀ f, ast_build_after_for true f = false) ∧
    (∀ f, ast_build_after_for false f = f) ∧
    (∀ s : Shape, (buildWithHooks s true).1.noMarks = true) ∧
    (∀ s : Shape, (buildWithHooks s false).1.atMostOneMarkPerPath = true ∧
      (buildWithHooks s false).2 = false) ∧
    (buildWithHooks (Shape.seqS (Shape.forS true (Shape.leafS 0))
        (Shape.forS true (Shape.leafS 1))) false).1 =
      ANode.seqA (ANode.forA true (ANode.leafA 0))
        (ANode.forA true (ANode.leafA 1)) :=
  ⟨fun par => ⟨rfl, rfl⟩, fun f => rfl, fun f => rfl,
    fun s => (buildWithHooks_inside_parallel s).1,
    buildWithHooks_path_invariant, rfl⟩

/-! ### Claim C5 (corrected) -/

/-- Counterexample to C5 as stated: with both `fopen` results failing, the
entry point still returns the success code 0 — the C code never inspects
the handles, so an open failure is not fatal and no distinguished failure
outcome is reported. -/
theorem c5_open_failure_not_fatal_cex :
    (generate_cpu (some scopEx4) ⟨true⟩ false false ⟨"pre", "post"⟩).1 = 0 :=
  rfl

/-- C5 amended: the entry point fails immediately (result -1, no output)
exactly when the SCoP model is absent; the results of opening the input and
output handles are never consulted — with a SCoP present the result code is
0 regardless of whether either open succeeded. -/
theorem c5_amended_failure_modes (options : PpcgOptions)
    (inOk outOk : Bool) (input : InputFile) :
    ((generate_cpu none options inOk outOk input).1 = -1 ∧
      (generate_cpu none options inOk outOk input).2 = []) ∧
    (∀ (scop : PpcgScop) (inOk2 outOk2 : Bool),
      (generate_cpu (some scop) options inOk2 outOk2 input).1 = 0) :=
  ⟨⟨rfl, rfl⟩, fun _ _ _ => rfl⟩

/-! ### Claim C6 -/

theorem countP_open_decl (l : List PpcgArray) :
    l.countP ((fun t => decide (t = OutTok.openBlock)) ∘ OutTok.declTok) =
      0 := by
  induction l with
  | nil => rfl
  | cons a tl ih => simp [List.countP_cons, Function.comp, ih]

theorem countP_close_decl (l : List PpcgArray) :
    l.countP ((fun t => decide (t = OutTok.closeBlock)) ∘ OutTok.declTok) =
      0 := by
  induction l with
  | nil => rfl
  | cons a tl ih => simp [List.countP_cons, Function.comp, ih]

theorem countP_open_tree (l : List TreeTok) :
    l.countP ((fun t => decide (t = OutTok.openBlock)) ∘ OutTok.treeTok) =
      0 := by
  induction l with
  | nil => rfl
  | cons a tl ih => simp [List.countP_cons, Function.comp, ih]

theorem countP_close_tree (l : List TreeTok) :
    l.countP ((fun t => decide (t = OutTok.closeBlock)) ∘ OutTok.treeTok) =
      0 := by
  induction l with
  | nil => rfl
  | cons a tl ih => simp [List.countP_cons, Function.comp, ih]

/-- C6: declarations for exposed arrays are printed unconditionally at the
enclosing scope; when at least one array is declared and not exposed the
output contains exactly one nested lexical block, that block holds exactly
the hidden-array declarations followed by the generated tree, and no
exposed-array declaration occurs in it (hidden declarations are all
declared-and-not-exposed and tree tokens are never declarations); when no
array is hidden the tree is printed directly at the enclosing scope and no
block occurs. -/
theorem c6_declaration_scoping (scop : PpcgScop) (options : PpcgOptions)
    (inOk outOk : Bool) (input : InputFile) :
    ((generate_cpu (some scop) options inOk outOk input).2 =
      [OutTok.text input.pre, OutTok.text cpuMarker] ++
        ppcg_print_exposed_declarations scop ++
        (if any_hidden_declarations (some scop) then
          [OutTok.openBlock] ++ ppcg_print_hidden_declarations scop ++
            (print_scop scop options).map OutTok.treeTok ++
            [OutTok.closeBlock]
        else (print_scop scop options).map OutTok.treeTok) ++
        [OutTok.text input.post]) ∧
    ((generate_cpu (some scop) options inOk outOk input).2.countP
        (fun t => decide (t = OutTok.openBlock)) =
      (if any_hidden_declarations (some scop) then 1 else 0)) ∧
    ((generate_cpu (some scop) options inOk outOk input).2.countP
        (fun t => decide (t = OutTok.closeBlock)) =
      (if any_hidden_declarations (some scop) then 1 else 0)) ∧
    (∀ a, OutTok.declTok a ∈ ppcg_print_hidden_declarations scop →
      a.declared = true ∧ a.exposed = false) ∧
    (∀ a, OutTok.declTok a ∉ (print_scop scop options).map OutTok.treeTok) ∧
    (∀ a, OutTok.declTok a ∈ ppcg_print_exposed_declarations scop →
      a.declared = true ∧ a.exposed = true) := by
  refine ⟨?_, ?_, ?_, ?_, ?_, ?_⟩
  · cases h : any_hidden_declarations (some scop) <;>
      simp [generate_cpu, h, List.append_assoc]
  · cases h : any_hidden_declarations (some scop) <;>
      simp [generate_cpu, h, List.countP_append, List.countP_cons,
        ppcg_print_exposed_declarations, ppcg_print_hidden_declarations,
        countP_open_decl, countP_open_tree]
  · cases h : any_hidden_declarations (some scop) <;>
      simp [generate_cpu, h, List.countP_append, List.countP_cons,
        ppcg_print_exposed_declarations, ppcg_print_hidden_declarations,
        countP_close_decl, countP_close_tree]
  · intro a ha
    unfold ppcg_print_hidden_declarations at ha
    obtain ⟨b, hb, hba⟩ := List.mem_map.mp ha
    obtain rfl : b = a := by injection hba
    have := (List.mem_filter.mp hb).2
    constructor
    · exact (Bool.and_eq_true _ _).mp this |>.1
    · have h2 := (Bool.and_eq_true _ _).mp this |>.2
      simpa using h2
  · intro a ha
    obtain ⟨t, _, hta⟩ := List.mem_map.mp ha
    cases hta
  · intro a ha
    unfold ppcg_print_exposed_declarations at ha
    obtain ⟨b, hb, hba⟩ := List.mem_map.mp ha
    obtain rfl : b = a := by injection hba
    have := (List.mem_filter.mp hb).2
    exact ⟨(Bool.and_eq_true _ _).mp this |>.1,
      (Bool.and_eq_true _ _).mp this |>.2⟩

/-- Two-array SCoP: array "A" is declared and exposed, array "t" is declared
and hidden. -/
def scopEx6 : PpcgScop :=
  { stmts := [], arrays := [⟨"A", true, true⟩, ⟨"t", true, false⟩],
    dep_flow := [], dep_false := [], shape := .leafS 0 }

/-- One-array SCoP with no hidden arrays. -/
def scopEx6b : PpcgScop :=
  { stmts := [], arrays := [⟨"A", true, true⟩],
    dep_flow := [], dep_false := [], shape := .leafS 0 }

/-- Concrete instantiation of `c6_declaration_scoping` on a SCoP with one
hidden array: the hidden case of the claim, with the block really occurring
exactly once. -/
theorem c6_declaration_scoping_witness :
    (any_hidden_declarations (some scopEx6) = true) ∧
    (any_hidden_declarations (some scopEx6b) = false) ∧
    ((generate_cpu (some scopEx6) ⟨true⟩ true true ⟨"p", "q"⟩).2.countP
        (fun t => decide (t = OutTok.openBlock)) = 1) ∧
    ((generate_cpu (some scopEx6b) ⟨true⟩ true true ⟨"p", "q"⟩).2.countP
        (fun t => decide (t = OutTok.openBlock)) = 0) :=
  ⟨rfl, rfl,
    (c6_declaration_scoping scopEx6 ⟨true⟩ true true ⟨"p", "q"⟩).2.1,
    (c6_declaration_scoping scopEx6b ⟨true⟩ true true ⟨"p", "q"⟩).2.1⟩

/-! ### Claim C7 -/

/-- C7: generation is deterministic — two runs of the generator on an
identical SCoP model, identical options, identical open results and
identical input text produce identical result codes and byte-identical
output token sequences. -/
theorem c7_deterministic (ps : Option PpcgScop) (options : PpcgOptions)
    (inOk outOk : Bool) (input : InputFile) (r1 r2 : Int × List OutTok)
    (h1 : r1 = generate_cpu ps options inOk outOk input)
    (h2 : r2 = generate_cpu ps options inOk outOk input) :
    r1 = r2 :=
  h1.trans h2.symm

/-- Concrete instantiation of `c7_deterministic`. -/
theorem c7_deterministic_witness :
    generate_cpu (some scopEx4) ⟨true⟩ true true ⟨"a", "b"⟩ =
      generate_cpu (some scopEx4) ⟨true⟩ true true ⟨"a", "b"⟩ :=
  c7_deterministic (some scopEx4) ⟨true⟩ true true ⟨"a", "b"⟩ _ _ rfl rfl

/-! ### Claim C8 (corrected) -/

theorem strrchr_eq_none_iff (l : List Char) (c : Char) :
    strrchr l c = none ↔ c ∉ l := by
  induction l with
  | nil => simp [strrchr]
  | cons a tl ih =>
    rw [strrchr]
    cases hr : strrchr tl c with
    | some s =>
      simp only [List.mem_cons]
      constructor
      · intro h; cases h
      · intro h
        exact absurd (ih.mpr (fun hm => h (Or.inr hm))) (by simp [hr])
    | none =>
      by_cases hac : a = c
      · subst hac
        simp
      · rw [if_neg hac]
        simp only [List.mem_cons]
        constructor
        · intro _ h
          rcases h with h | h
          · exact hac h.symm
          · exact absurd (ih.mp hr) (by simp [h])
        · intro _; trivial

theorem strrchr_spec (l : List Char) (c : Char) (suf : List Char)
    (h : strrchr l c = some suf) :
    ∃ pre, l = pre ++ suf ∧ suf.take 1 = [c] ∧ c ∉ suf.drop 1 := by
  induction l with
  | nil => cases h
  | cons a tl ih =>
    rw [strrchr] at h
    cases hr : strrchr tl c with
    | some s2 =>
      rw [hr] at h
      obtain rfl : s2 = suf := by injection h
      obtain ⟨pre, hpre, ht, hd⟩ := ih hr
      exact ⟨a :: pre, by simp [hpre], ht, hd⟩
    | none =>
      rw [hr] at h
      by_cases hac : a = c
      · rw [if_pos hac] at h
        obtain rfl : a :: tl = suf := by injection h
        refine ⟨[], by simp, by simp [hac], ?_⟩
        simpa using (strrchr_eq_none_iff tl c).mp hr
      · rw [if_neg hac] at h
        cases h

theorem strrchr_append_slash (d b : List Char) (hb : '/' ∉ b) :
    strrchr (d ++ '/' :: b) '/' = some ('/' :: b) := by
  induction d with
  | nil =>
    rw [List.nil_append, strrchr, (strrchr_eq_none_iff b '/').mpr hb,
      if_pos rfl]
  | cons x d ih =>
    rw [List.cons_append, strrchr, ih]

theorem get_base_no_slash (input : List Char) : '/' ∉ get_base input := by
  unfold get_base
  cases hr : strrchr input '/' with
  | none => exact (strrchr_eq_none_iff input '/').mp hr
  | some suf =>
    obtain ⟨pre, hpre, ht, hd⟩ := strrchr_spec input '/' suf hr
    exact hd

theorem get_base_append (d b : List Char) (hb : '/' ∉ b) :
    get_base (d ++ '/' :: b) = b := by
  unfold get_base
  rw [strrchr_append_slash d b hb]
  rfl

/-- Counterexample to C8 as stated: the claim derives an output name for
every input path by replacing the final component's final '.' extension,
but the input "file" has no '.' at all — `strrchr` returns `NULL`, the
final `strcpy` copies from a null pointer (undefined behavior), and no
output name of the claimed shape is derived. -/
theorem c8_no_extension_cex :
    output_file_name ('f' :: 'i' :: 'l' :: 'e' :: []) = none := rfl

/-- C8 amended: for every input path whose final component contains a '.',
the derived output name is obtained from the final path component only, by
replacing everything after (and including) that component's final '.'
extension with ".ppcg" followed by the original extension; inputs whose
final component has no '.' instead reach a `strcpy` from a null pointer. -/
theorem c8_amended_output_name (input : List Char)
    (h : '.' ∈ get_base input) :
    (∃ stem ext, get_base input = stem ++ ext ∧ ext.take 1 = ['.'] ∧
      '.' ∉ ext.drop 1 ∧
      output_file_name input = some (stem ++ ".ppcg".toList ++ ext)) ∧
    (∀ d : List Char,
      output_file_name (d ++ '/' :: get_base input) =
        output_file_name input) := by
  constructor
  · cases he : strrchr (get_base input) '.' with
    | none => exact absurd h ((strrchr_eq_none_iff _ '.').mp he)
    | some ext =>
      obtain ⟨pre, hpre, ht, hd⟩ := strrchr_spec (get_base input) '.' ext he
      refine ⟨pre, ext, hpre, ht, hd, ?_⟩
      unfold output_file_name
      rw [he, hpre]
      show some (List.take ((pre ++ ext).length - ext.length) (pre ++ ext) ++
        ".ppcg".toList ++ ext) = some (pre ++ ".ppcg".toList ++ ext)
      have hlen : (pre ++ ext).length - ext.length = pre.length := by
        simp
      rw [hlen, List.take_left]
  · intro d
    unfold output_file_name
    rw [get_base_append d (get_base input) (get_base_no_slash input)]

/-- Evaluation of the amended derivation at the claim's own example:
file.c becomes file.ppcg.c. -/
theorem output_file_name_example :
    output_file_name ('f' :: 'i' :: 'l' :: 'e' :: '.' :: 'c' :: []) =
      some ('f' :: 'i' :: 'l' :: 'e' :: '.' :: 'p' :: 'p' :: 'c' :: 'g' ::
        '.' :: 'c' :: []) := rfl

/-- Concrete instantiation of `c8_amended_output_name` at the input
"file.c". -/
theorem c8_amended_output_name_witness :
    ('.' ∈ get_base ('f' :: 'i' :: 'l' :: 'e' :: '.' :: 'c' :: [])) ∧
    ((∃ stem ext,
      get_base ('f' :: 'i' :: 'l' :: 'e' :: '.' :: 'c' :: []) =
        stem ++ ext ∧ ext.take 1 = ['.'] ∧ '.' ∉ ext.drop 1 ∧
      output_file_name ('f' :: 'i' :: 'l' :: 'e' :: '.' :: 'c' :: []) =
        some (stem ++ ".ppcg".toList ++ ext)) ∧
    (∀ d : List Char,
      output_file_name (d ++ '/' ::
          get_base ('f' :: 'i' :: 'l' :: 'e' :: '.' :: 'c' :: [])) =
        output_file_name ('f' :: 'i' :: 'l' :: 'e' :: '.' :: 'c' :: []))) :=
  ⟨by decide, c8_amended_output_name _ (by decide)⟩

end PpcgCpu
